import Mathlib

/-!
# Verification development for the email-notification program

Shallow embedding of the subscription/notification engine of
`src/dataloader.py` (a Streamlit application), together with theorems about
its merge algorithm, its recipient directory, its persistence layer and the
due-evaluation rules of the design document.

Modelling conventions:
* timestamps (`datetime.now()`) are natural numbers (seconds);
* the `frequency` field is a plain `String`, exactly as in the pydantic
  model (`frequency: str`), with `"instant"`, `"daily"`, `"weekly"`,
  `"monthly"` the values offered by the UI select box;
* Python `None` is `Option.none`;
* fallible operations return `Except String _`;
* the JSON documents written by `json.dump` are modelled by the inductive
  type `JValue`.
-/

namespace EmailNotify

/-- Embeds the pydantic model `Notification` (src/dataloader.py lines 26-29):
`topic: str`, `frequency: str` (comment: instant, daily, weekly, monthly),
`last_sent: Optional[datetime] = None`. -/
structure Notification where
  topic : String
  frequency : String
  last_sent : Option Nat
deriving DecidableEq, Repr

/-- Embeds the pydantic model `Recipient` (src/dataloader.py lines 32-35):
`email: EmailStr`, `topics: List[str] = []`, `notifications: List[Notification] = []`. -/
structure Recipient where
  email : String
  topics : List String
  notifications : List Notification
deriving DecidableEq, Repr

/-- One iteration of the notification-merge loop body (src/dataloader.py
lines 305-332) for a single selected `topic` with the chosen `frequency`:
scan the recipient's notification list for the first record whose topic
equals `t` (`if n["topic"] == topic`); if found, replace it in place by
`Notification(topic=topic, frequency=frequency, last_sent=datetime.now() if
frequency == "instant" else n.get("last_sent"))` and stop (`break`); if the
scan finds no match (`if not notification_exists`), append
`Notification(topic=topic, frequency=frequency, last_sent=datetime.now() if
frequency == "instant" else None)`. -/
def mergeTopic : List Notification → String → String → Nat → List Notification
  | [], t, f, now => [⟨t, f, if f = "instant" then some now else none⟩]
  | n :: rest, t, f, now =>
    if n.topic = t then
      ⟨t, f, if f = "instant" then some now else n.last_sent⟩ :: rest
    else
      n :: mergeTopic rest t f now

/-- The whole merge pass (src/dataloader.py line 284, `for topic in
selected_topics:`): the loop body `mergeTopic` is run once per selected
topic, in order, all with the same chosen frequency and the same clock. -/
def mergeSelection (ns : List Notification) (S : List String) (f : String)
    (now : Nat) : List Notification :=
  S.foldl (fun acc t => mergeTopic acc t f now) ns

/-- The first record of the list whose topic is `t` — the record the merge
loop's linear scan (src/dataloader.py lines 309-321) finds and updates. -/
def firstMatch : List Notification → String → Option Notification
  | [], _ => none
  | n :: rest, t => if n.topic = t then some n else firstMatch rest t

/-- A sequence of merge passes: each operation is a desired topic list, a
chosen frequency, and the clock value at which the pass runs. -/
def applyMerges (ns : List Notification) (ops : List (List String × String × Nat)) :
    List Notification :=
  ops.foldl (fun acc op => mergeSelection acc op.1 op.2.1 op.2.2) ns

/-- The in-place update the merge loop applies to the record whose topic
matches the selected topic (src/dataloader.py lines 311-319): the topic is
kept (the matched record's own topic), the frequency becomes the chosen one,
and `last_sent` becomes the current time when the chosen frequency is
`"instant"` and is kept otherwise. -/
def updateNotification (n : Notification) (f : String) (now : Nat) : Notification :=
  ⟨n.topic, f, if f = "instant" then some now else n.last_sent⟩

/-- `lastSentLE a b` says the step from `last_sent = a` to `last_sent = b`
never moves the timestamp backwards: any present old value is dominated by a
present new value. -/
def lastSentLE (a b : Option Nat) : Prop :=
  ∀ x : Nat, a = some x → ∃ y : Nat, b = some y ∧ x ≤ y

/-- `monotoneUpdates n us` says that along the sequence of in-place updates
`us` (each a chosen frequency together with the clock value at which the
update runs) applied to the record `n`, no single update moves `last_sent`
backwards. -/
def monotoneUpdates : Notification → List (String × Nat) → Prop
  | _, [] => True
  | n, u :: us =>
    lastSentLE n.last_sent (updateNotification n u.1 u.2).last_sent ∧
      monotoneUpdates (updateNotification n u.1 u.2) us

/-- The observable effect of one iteration of the per-topic block of the
Notifications tab: the updated notification list and the list of
`(recipient email, topic)` sends issued during the iteration. -/
structure SelectionEffect where
  notifications : List Notification
  sends : List (String × String)
deriving DecidableEq, Repr

/-- Embeds one iteration of the per-topic block of the Notifications tab
(src/dataloader.py lines 284-336) for recipient `email`: an instant e-mail is
issued only inside `if frequency == "instant": if st.button("Send Now", ...)`
with the sidebar configuration present (lines 294-303, calling
`send_instant_email`); independently of that button, the merge loop
(lines 305-332) updates the notification list. -/
def selectionStep (email : String) (ns : List Notification) (t f : String)
    (sendNowClicked configAvailable : Bool) (now : Nat) : SelectionEffect :=
  ⟨mergeTopic ns t f now,
   if f = "instant" ∧ sendNowClicked = true ∧ configAvailable = true
   then [(email, t)] else []⟩

/-- Embeds the Add Recipient handler (src/dataloader.py lines 212-220): the
handler constructs `Recipient(email=new_email)` — pydantic `EmailStr`
validates only the format of the address — and appends its dict to the
session list. No lookup of the existing directory is performed before the
append, so no duplicate check of any kind happens. -/
def addRecipient (rs : List Recipient) (e : String) : List Recipient :=
  rs ++ [⟨e, [], []⟩]

/-- Embeds pydantic construction of `Notification` (src/dataloader.py lines
26-29): the model declares `topic: str`, `frequency: str`, `last_sent:
Optional[datetime] = None`; pydantic validates only these field types, and
`frequency` carries no value constraint (the four cadences appear only in a
source comment), so construction succeeds for every string. -/
def notificationConstruct (tp f : String) (ls : Option Nat) :
    Except String Notification :=
  Except.ok ⟨tp, f, ls⟩

/-- The three verdicts of due evaluation in the design document (§4.3). -/
inductive DueStatus where
  | NotDue : DueStatus
  | Due : DueStatus
  | Invalid : DueStatus
deriving DecidableEq, Repr

/-- Modelled from the spec: the repository's source contains no due
evaluator — `src/dataloader.py` has no periodic scan or cadence check, only
the data model. This is the shared periodic rule of §4.3: due when
`last_sent` is absent, or at least `period` seconds have elapsed since it
(`≥`, not `>`). -/
def duePeriod (ls : Option Nat) (now period : Nat) : DueStatus :=
  match ls with
  | none => DueStatus.Due
  | some t => if t + period ≤ now then DueStatus.Due else DueStatus.NotDue

/-- Modelled from the spec: the repository's source contains no due
evaluator, so this follows §4.3 of the design document: daily is due after
24h, weekly after 7×24h, monthly after 30×24h (absent `last_sent` counts as
due); `instant` is never due at a periodic evaluation (it is a one-shot
action at selection time, §4.3/§4.4); any other frequency value is
`Invalid`. -/
def dueEval (n : Notification) (now : Nat) : DueStatus :=
  if n.frequency = "instant" then DueStatus.NotDue
  else if n.frequency = "daily" then duePeriod n.last_sent now 86400
  else if n.frequency = "weekly" then duePeriod n.last_sent now 604800
  else if n.frequency = "monthly" then duePeriod n.last_sent now 2592000
  else DueStatus.Invalid

/-- The relation between the notification lists produced by two successive
`instant` merge passes: records agree on topic and frequency, and a record
may differ only in `last_sent`, which then carries the second pass's clock
value `t2` (and only for a topic of the desired set `S`). -/
def sameButLastSent (S : List String) (t2 : Nat) (a b : Notification) : Prop :=
  a.topic = b.topic ∧ a.frequency = b.frequency ∧
    (a.last_sent = b.last_sent ∨ (a.topic ∈ S ∧ b.last_sent = some t2))

/-- The first record for topic `t` exists and carries frequency `f` — the
state of affairs a merge pass leaves behind for every selected topic. -/
def firstHasFreq (ns : List Notification) (t f : String) : Prop :=
  ∃ ls : Option Nat, firstMatch ns t = some ⟨t, f, ls⟩

/-- JSON values, the image of `json.dump` (src/dataloader.py lines 125-127):
the persisted document is built from strings, arrays, objects and `null`. -/
inductive JValue where
  | null : JValue
  | str : String → JValue
  | arr : List JValue → JValue
  | obj : List (String × JValue) → JValue

/-- Key lookup in a JSON object, as Python's `dict.get` used by `load_data`
(src/dataloader.py lines 120-121). -/
def lookupJ : List (String × JValue) → String → Option JValue
  | [], _ => none
  | (k, v) :: rest, key => if k = key then some v else lookupJ rest key

/-- Serialization of one notification dict by `json.dump`: with `last_sent`
equal to `None` the dict is plain JSON; with a `datetime` value `json.dump`
raises `TypeError` (datetime is not JSON serializable), modelled as an
error. -/
def encNotification (n : Notification) : Except String JValue :=
  match n.last_sent with
  | none => Except.ok (JValue.obj [("topic", JValue.str n.topic),
      ("frequency", JValue.str n.frequency), ("last_sent", JValue.null)])
  | some _ => Except.error "Object of type datetime is not JSON serializable"

/-- Serialization of one recipient dict (the shape produced by
`Recipient(...).dict()`, src/dataloader.py line 216) by `json.dump`. -/
def encRecipient (r : Recipient) : Except String JValue := do
  let ns ← r.notifications.mapM encNotification
  Except.ok (JValue.obj [("email", JValue.str r.email),
    ("topics", JValue.arr (r.topics.map JValue.str)),
    ("notifications", JValue.arr ns)])

/-- Embeds `save_data` (src/dataloader.py lines 125-127): the persisted
document is `{"recipients": recipients, "topics": topics}` as written by
`json.dump`. -/
def saveData (rs : List Recipient) (ts : List String) : Except String JValue := do
  let es ← rs.mapM encRecipient
  Except.ok (JValue.obj [("recipients", JValue.arr es),
    ("topics", JValue.arr (ts.map JValue.str))])

/-- Reading a JSON string back, inverting the `JValue.str` encoding. -/
def decString : JValue → Except String String
  | JValue.str s => Except.ok s
  | _ => Except.error "expected a string"

/-- Reading one notification dict back from the persisted document. -/
def decNotification : JValue → Except String Notification
  | JValue.obj [("topic", JValue.str tp), ("frequency", JValue.str f),
      ("last_sent", JValue.null)] => Except.ok ⟨tp, f, none⟩
  | _ => Except.error "malformed notification"

/-- Reading one recipient dict back from the persisted document. -/
def decRecipient : JValue → Except String Recipient
  | JValue.obj [("email", JValue.str e), ("topics", JValue.arr ts),
      ("notifications", JValue.arr ns)] => do
    let ts' ← ts.mapM decString
    let ns' ← ns.mapM decNotification
    Except.ok ⟨e, ts', ns'⟩
  | _ => Except.error "malformed recipient"

/-- Embeds `load_data` (src/dataloader.py lines 117-122) applied to a parsed
document: `data.get("recipients", [])` and `data.get("topics", [])` — a
missing key yields the empty list. -/
def loadData (j : JValue) : Except String (List Recipient × List String) :=
  match j with
  | JValue.obj kvs => do
    let rs ← (match lookupJ kvs "recipients" with
      | some (JValue.arr es) => es.mapM decRecipient
      | some _ => Except.error "malformed recipients"
      | none => Except.ok ([] : List Recipient))
    let ts ← (match lookupJ kvs "topics" with
      | some (JValue.arr tjs) => tjs.mapM decString
      | some _ => Except.error "malformed topics"
      | none => Except.ok ([] : List String))
    Except.ok (rs, ts)
  | _ => Except.error "malformed document"

/-! ## Theorems -/

/-- If no record in the list has topic `t`, `mergeTopic` appends a fresh record. -/
theorem mergeTopic_append (ns : List Notification) (t f : String) (now : Nat)
    (h : ∀ n ∈ ns, n.topic ≠ t) :
    mergeTopic ns t f now = ns ++ [⟨t, f, if f = "instant" then some now else none⟩] := by
  induction ns with
  | nil => rfl
  | cons n rest ih =>
    have hn : n.topic ≠ t := h n (List.mem_cons_self n rest)
    simp only [mergeTopic, if_neg hn]
    rw [ih fun m hm => h m (List.mem_cons_of_mem n hm)]
    rfl

/-- If `ns = pre₀ ++ n :: post` where `n` is the first record with topic `t`,
`mergeTopic` replaces exactly that record. -/
theorem mergeTopic_update (pre₀ post : List Notification) (n : Notification)
    (t f : String) (now : Nat) (hn : n.topic = t) (hpre : ∀ m ∈ pre₀, m.topic ≠ t) :
    mergeTopic (pre₀ ++ n :: post) t f now =
      pre₀ ++ ⟨t, f, if f = "instant" then some now else n.last_sent⟩ :: post := by
  induction pre₀ with
  | nil => simp [mergeTopic, hn]
  | cons m rest ih =>
    have hm : m.topic ≠ t := hpre m (List.mem_cons_self m rest)
    simp only [List.cons_append, mergeTopic, if_neg hm]
    exact congrArg (m :: ·) (ih fun q hq => hpre q (List.mem_cons_of_mem m hq))

/-- The code's in-place replacement of a matched record is exactly
`updateNotification` applied to that record. -/
theorem mergeTopic_head_eq_update (n : Notification) (rest : List Notification)
    (t f : String) (now : Nat) (h : n.topic = t) :
    mergeTopic (n :: rest) t f now = updateNotification n f now :: rest := by
  subst h
  simp [mergeTopic, updateNotification]

/-- C1: one merge step for topic `t` with chosen frequency `f` at clock `now`:
if no record for `t` exists, a record `(topic = t, frequency = f)` is appended
with `last_sent = now` when `f = instant` and absent otherwise; if a record
for `t` exists (the first such record, at position `pre₀.length`), its
frequency becomes `f` and its `last_sent` becomes `now` when `f = instant`
and is kept otherwise, all other records being untouched. -/
theorem merge_step_spec (ns : List Notification) (t f : String) (now : Nat) :
    ((∀ n ∈ ns, n.topic ≠ t) →
      mergeTopic ns t f now = ns ++ [⟨t, f, if f = "instant" then some now else none⟩]) ∧
    (∀ pre₀ post : List Notification, ∀ n : Notification,
      ns = pre₀ ++ n :: post → n.topic = t → (∀ m ∈ pre₀, m.topic ≠ t) →
      mergeTopic ns t f now =
        pre₀ ++ ⟨t, f, if f = "instant" then some now else n.last_sent⟩ :: post) := by
  refine ⟨fun h => mergeTopic_append ns t f now h, ?_⟩
  intro pre₀ post n hns hn hpre
  rw [hns]
  exact mergeTopic_update pre₀ post n t f now hn hpre

/-- Witness for `merge_step_spec`: a concrete run of both branches. -/
theorem merge_step_spec_witness :
    mergeTopic [⟨"billing", "daily", none⟩] "security" "daily" 7 =
      [⟨"billing", "daily", none⟩, ⟨"security", "daily", none⟩] ∧
    mergeTopic [⟨"billing", "daily", some 3⟩] "billing" "instant" 9 =
      [⟨"billing", "instant", some 9⟩] := by
  constructor
  · have h := (merge_step_spec [⟨"billing", "daily", none⟩] "security" "daily" 7).1
      (by decide)
    simpa using h
  · have h := (merge_step_spec [⟨"billing", "daily", some 3⟩] "billing" "instant" 9).2
      [] [] ⟨"billing", "daily", some 3⟩ rfl rfl (by simp)
    simpa using h

/-- A record the merge loop does not match keeps its position and value. -/
theorem mergeTopic_frame (ns : List Notification) (t f : String) (now : Nat)
    (i : Nat) (h : i < ns.length) (ht : ns[i].topic ≠ t) :
    (mergeTopic ns t f now)[i]? = some ns[i] := by
  induction ns generalizing i with
  | nil => exact absurd h (by simp)
  | cons n rest ih =>
    by_cases hn : n.topic = t
    · simp only [mergeTopic, if_pos hn]
      cases i with
      | zero => exact absurd hn (by simpa using ht)
      | succ j =>
        have hj : j < rest.length := by simpa using h
        simp [List.getElem?_eq_getElem hj]
    · simp only [mergeTopic, if_neg hn]
      cases i with
      | zero => simp
      | succ j =>
        have hj : j < rest.length := by simpa using h
        have htj : rest[j].topic ≠ t := by simpa using ht
        simpa using ih j hj htj

/-- A record whose topic is outside the desired set is untouched by a whole
merge pass, and keeps its position. -/
theorem mergeSelection_frame (S : List String) (ns : List Notification) (f : String)
    (now : Nat) (i : Nat) (h : i < ns.length) (hS : ns[i].topic ∉ S) :
    (mergeSelection ns S f now)[i]? = some ns[i] := by
  induction S generalizing ns with
  | nil => simp [mergeSelection, List.getElem?_eq_getElem h]
  | cons t S' ih =>
    have ht : ns[i].topic ≠ t := fun hc => hS (hc ▸ List.mem_cons_self t S')
    have hstep := mergeTopic_frame ns t f now i h ht
    obtain ⟨h', heq⟩ := List.getElem?_eq_some.mp hstep
    have hrw : mergeSelection ns (t :: S') f now
        = mergeSelection (mergeTopic ns t f now) S' f now := rfl
    have hmem : (mergeTopic ns t f now)[i].topic ∉ S' := by
      rw [heq]; exact fun hc => hS (List.mem_cons_of_mem t hc)
    rw [hrw, ih (mergeTopic ns t f now) h' hmem, heq]

/-- C8: in a merge pass with desired topic list `S`, every record of the
recipient whose topic is not in `S` is neither deleted nor modified — topic,
frequency and `last_sent` are unchanged — and it keeps its position `i`. -/
theorem merge_frame_spec (ns : List Notification) (S : List String) (f : String)
    (now : Nat) :
    ∀ i : Nat, ∀ h : i < ns.length, (ns.get ⟨i, h⟩).topic ∉ S →
      (mergeSelection ns S f now)[i]? = some (ns.get ⟨i, h⟩) := by
  intro i h hS
  exact mergeSelection_frame S ns f now i h hS

/-- Witness for `merge_frame_spec`: a record for `billing` survives a merge
pass that selects only `security`, at the same position, unmodified. -/
theorem merge_frame_spec_witness :
    (mergeSelection [⟨"billing", "daily", some 2⟩] ["security"] "instant" 9)[0]?
      = some ⟨"billing", "daily", some 2⟩ :=
  merge_frame_spec [⟨"billing", "daily", some 2⟩] ["security"] "instant" 9 0
    (by decide) (by decide)

/-- Every topic occurring after a merge step occurred before, or is the merged
topic itself. -/
theorem mergeTopic_topics (ns : List Notification) (t f : String) (now : Nat) :
    ∀ s ∈ (mergeTopic ns t f now).map (·.topic), s ∈ ns.map (·.topic) ∨ s = t := by
  induction ns with
  | nil => simp [mergeTopic]
  | cons n rest ih =>
    by_cases hn : n.topic = t
    · simp only [mergeTopic, if_pos hn, List.map_cons, List.mem_cons]
      intro s hs
      rcases hs with hs | hs
      · exact Or.inr hs
      · exact Or.inl (Or.inr hs)
    · simp only [mergeTopic, if_neg hn, List.map_cons, List.mem_cons]
      intro s hs
      rcases hs with hs | hs
      · exact Or.inl (Or.inl hs)
      · rcases ih s hs with h | h
        · exact Or.inl (Or.inr h)
        · exact Or.inr h

/-- One merge step preserves distinctness of the record topics. -/
theorem mergeTopic_nodup (ns : List Notification) (t f : String) (now : Nat)
    (h : (ns.map (·.topic)).Nodup) :
    ((mergeTopic ns t f now).map (·.topic)).Nodup := by
  induction ns with
  | nil => simp [mergeTopic]
  | cons n rest ih =>
    simp only [List.map_cons, List.nodup_cons] at h
    by_cases hn : n.topic = t
    · simp only [mergeTopic, if_pos hn, List.map_cons, List.nodup_cons]
      exact ⟨hn ▸ h.1, h.2⟩
    · simp only [mergeTopic, if_neg hn, List.map_cons, List.nodup_cons]
      refine ⟨fun hc => ?_, ih h.2⟩
      rcases mergeTopic_topics rest t f now n.topic hc with hmem | heq
      · exact h.1 hmem
      · exact hn heq

/-- A whole merge pass preserves distinctness of the record topics. -/
theorem mergeSelection_nodup (S : List String) (ns : List Notification)
    (f : String) (now : Nat) (h : (ns.map (·.topic)).Nodup) :
    ((mergeSelection ns S f now).map (·.topic)).Nodup := by
  induction S generalizing ns with
  | nil => exact h
  | cons t S' ih => exact ih (mergeTopic ns t f now) (mergeTopic_nodup ns t f now h)

/-- C4: starting from a notification list with pairwise-distinct topics (for
example a freshly added recipient, whose list is empty), after any finite
sequence of merge passes no two records share the same topic. -/
theorem merge_topic_uniqueness (ns : List Notification)
    (ops : List (List String × String × Nat))
    (h : (ns.map (·.topic)).Nodup) :
    ((applyMerges ns ops).map (·.topic)).Nodup := by
  induction ops generalizing ns with
  | nil => exact h
  | cons op rest ih =>
    exact ih (mergeSelection ns op.1 op.2.1 op.2.2)
      (mergeSelection_nodup op.1 ns op.2.1 op.2.2 h)

/-- Witness for `merge_topic_uniqueness`: two merge passes on a fresh
recipient leave the topics pairwise distinct. -/
theorem merge_topic_uniqueness_witness :
    ((applyMerges [] [(["billing", "security"], "daily", 0),
        (["billing"], "instant", 5)]).map (·.topic)).Nodup :=
  merge_topic_uniqueness [] [(["billing", "security"], "daily", 0),
    (["billing"], "instant", 5)] (by decide)

/-- One in-place update never moves `last_sent` backwards, provided the clock
has not gone backwards since the present value was written. -/
theorem updateNotification_lastSentLE (n : Notification) (f : String) (now : Nat)
    (h : ∀ x : Nat, n.last_sent = some x → x ≤ now) :
    lastSentLE n.last_sent (updateNotification n f now).last_sent := by
  intro x hx
  by_cases hf : f = "instant"
  · exact ⟨now, by simp [updateNotification, hf], h x hx⟩
  · exact ⟨x, by simp [updateNotification, hf, hx], le_refl x⟩

/-- C7: along any sequence of in-place updates to one record — frequency
changes and re-selections — run at non-decreasing clock values, none of
which precedes the record's current `last_sent`, the `last_sent` timestamp
is monotonically non-decreasing: no update sets it to a value earlier than
its previous value. -/
theorem last_sent_monotone (n : Notification) (us : List (String × Nat))
    (hsorted : List.Sorted (· ≤ ·) (us.map Prod.snd))
    (hinit : ∀ x : Nat, n.last_sent = some x → ∀ u ∈ us, x ≤ u.2) :
    monotoneUpdates n us := by
  induction us generalizing n with
  | nil => trivial
  | cons u rest ih =>
    simp only [List.map_cons, List.sorted_cons] at hsorted
    refine ⟨updateNotification_lastSentLE n u.1 u.2
      (fun x hx => hinit x hx u (List.mem_cons_self u rest)), ?_⟩
    apply ih
    · exact hsorted.2
    · intro x hx v hv
      by_cases hf : u.1 = "instant"
      · have hup : (updateNotification n u.1 u.2).last_sent = some u.2 := by
          simp [updateNotification, hf]
        rw [hup] at hx
        obtain rfl : u.2 = x := Option.some.inj hx
        exact hsorted.1 v.2 (List.mem_map_of_mem Prod.snd hv)
      · have hup : (updateNotification n u.1 u.2).last_sent = n.last_sent := by
          simp [updateNotification, hf]
        rw [hup] at hx
        exact hinit x hx v (List.mem_cons_of_mem u hv)

/-- Witness for `last_sent_monotone`: a concrete record under three updates
at increasing clock values. -/
theorem last_sent_monotone_witness :
    monotoneUpdates ⟨"billing", "daily", some 3⟩
      [("instant", 5), ("daily", 7), ("instant", 9)] :=
  last_sent_monotone ⟨"billing", "daily", some 3⟩
    [("instant", 5), ("daily", 7), ("instant", 9)]
    (by decide)
    (by intro x hx; injection hx with h; subst h; decide)

/-- C6 counterexample: the Add Recipient handler performs no duplicate
check — adding `a@x.com` twice succeeds both times, the directory grows to
two entries, and no `DuplicateRecipient` failure occurs, contrary to the
claim that the second add fails and leaves the directory unchanged. -/
theorem add_duplicate_counterexample :
    addRecipient (addRecipient [] "a@x.com") "a@x.com"
      = [⟨"a@x.com", [], []⟩, ⟨"a@x.com", [], []⟩] ∧
    (addRecipient (addRecipient [] "a@x.com") "a@x.com").length = 2 :=
  ⟨rfl, rfl⟩

/-- C6 (amended): the handler never checks the existing directory: for every
directory state and every address — duplicate or not, in any case — the
directory grows by exactly one entry, appended at the end, and every existing
entry keeps its position, so insertion order is preserved; there is no
`DuplicateRecipient` failure path. -/
theorem add_recipient_appends (rs : List Recipient) (e : String) :
    addRecipient rs e = rs ++ [⟨e, [], []⟩] ∧
    (addRecipient rs e).length = rs.length + 1 ∧
    ∀ i : Nat, ∀ h : i < rs.length, (addRecipient rs e)[i]? = some (rs.get ⟨i, h⟩) := by
  refine ⟨rfl, by simp [addRecipient], ?_⟩
  intro i h
  show (rs ++ [(⟨e, [], []⟩ : Recipient)])[i]? = some (rs.get ⟨i, h⟩)
  rw [List.getElem?_append, if_pos h, List.getElem?_eq_getElem h]
  rfl

/-- Witness for `add_recipient_appends`: adding to a one-entry directory. -/
theorem add_recipient_appends_witness :
    addRecipient [⟨"a@x.com", [], []⟩] "b@y.com"
      = [⟨"a@x.com", [], []⟩, ⟨"b@y.com", [], []⟩] ∧
    (addRecipient [⟨"a@x.com", [], []⟩] "b@y.com")[0]? = some ⟨"a@x.com", [], []⟩ := by
  have h := add_recipient_appends [⟨"a@x.com", [], []⟩] "b@y.com"
  exact ⟨by simpa using h.1, h.2.2 0 (by decide)⟩

/-- C9 counterexample: pydantic accepts any string as `frequency`, so a
`Notification` with the unrecognized frequency `hourly` is constructed
successfully — no `InvalidFrequency` failure at construction time — and due
evaluation can see it (returning `Invalid`), contrary to the claim. -/
theorem invalid_frequency_counterexample :
    notificationConstruct "billing" "hourly" none
      = Except.ok ⟨"billing", "hourly", none⟩ ∧
    dueEval ⟨"billing", "hourly", none⟩ 0 = DueStatus.Invalid :=
  ⟨rfl, by decide⟩

/-- C9 (amended): construction validates only the field types, never the
frequency value: for every string `f` outside
{instant, daily, weekly, monthly} construction still succeeds, and the
unrecognized value is detected only at evaluation time, where due evaluation
returns `Invalid`. -/
theorem invalid_frequency_amended (tp f : String) (ls : Option Nat) (now : Nat)
    (h : f ∉ (["instant", "daily", "weekly", "monthly"] : List String)) :
    notificationConstruct tp f ls = Except.ok ⟨tp, f, ls⟩ ∧
    dueEval ⟨tp, f, ls⟩ now = DueStatus.Invalid := by
  simp only [List.mem_cons, List.mem_singleton, not_or] at h
  obtain ⟨h1, h2, h3, h4⟩ := h
  refine ⟨rfl, ?_⟩
  simp only [dueEval]
  rw [if_neg h1, if_neg h2, if_neg h3]
  exact if_neg (by simpa using h4)

/-- Witness for `invalid_frequency_amended` at the frequency `hourly`. -/
theorem invalid_frequency_amended_witness :
    notificationConstruct "billing" "hourly" (some 3)
      = Except.ok ⟨"billing", "hourly", some 3⟩ ∧
    dueEval ⟨"billing", "hourly", some 3⟩ 50 = DueStatus.Invalid :=
  invalid_frequency_amended "billing" "hourly" (some 3) 50 (by decide)

/-- After a merge step for topic `t` with frequency `instant` at clock `now`,
the first record for `t` is exactly `⟨t, "instant", some now⟩`. -/
theorem firstMatch_mergeTopic_instant (ns : List Notification) (t : String)
    (now : Nat) :
    firstMatch (mergeTopic ns t "instant" now) t = some ⟨t, "instant", some now⟩ := by
  induction ns with
  | nil => simp [mergeTopic, firstMatch]
  | cons n rest ih =>
    by_cases hn : n.topic = t
    · simp [mergeTopic, hn, firstMatch]
    · simp [mergeTopic, hn, firstMatch, ih]

/-- C5 counterexample: a merge that selects `security` with frequency
`instant` at time `T1 = 100` sets `last_sent = 100` immediately, but with the
`Send Now` button not clicked the iteration issues zero sends — not exactly
one — so no send accompanies the selection itself. -/
theorem instant_send_counterexample :
    (selectionStep "r@x.com" [] "security" "instant" false true 100).sends = [] ∧
    firstMatch (selectionStep "r@x.com" [] "security" "instant" false true 100).notifications
      "security" = some ⟨"security", "instant", some 100⟩ := by
  constructor
  · simp [selectionStep]
  · simpa [selectionStep] using firstMatch_mergeTopic_instant [] "security" 100

/-- C5 (amended): a merge selecting topic `t` with frequency `instant` at
time `T1` sets the record's `last_sent` to `T1` immediately; but a send is
issued at merge time only when the operator also clicks `Send Now` with the
e-mail configuration present in the sidebar — in that case exactly one send
for `(recipient, topic)` is issued, and otherwise none; no later periodic
scan exists in the program. -/
theorem instant_merge_amended (email : String) (ns : List Notification)
    (t : String) (sendNow cfg : Bool) (now : Nat) :
    firstMatch (selectionStep email ns t "instant" sendNow cfg now).notifications t
      = some ⟨t, "instant", some now⟩ ∧
    (selectionStep email ns t "instant" sendNow cfg now).sends
      = (if sendNow = true ∧ cfg = true then [(email, t)] else []) := by
  refine ⟨firstMatch_mergeTopic_instant ns t now, ?_⟩
  simp [selectionStep]

/-- The periodic rule is due exactly when `last_sent` is absent or
`now − last_sent ≥ period` (integer arithmetic, `≥` not `>`). -/
theorem duePeriod_due_iff (ls : Option Nat) (now period : Nat) :
    duePeriod ls now period = DueStatus.Due ↔
      ls = none ∨ ∃ t : Nat, ls = some t ∧ (period : Int) ≤ (now : Int) - (t : Int) := by
  cases ls with
  | none => simp [duePeriod]
  | some t =>
    simp only [duePeriod]
    by_cases hle : t + period ≤ now
    · rw [if_pos hle]
      constructor
      · intro _
        exact Or.inr ⟨t, rfl, by omega⟩
      · intro _
        rfl
    · rw [if_neg hle]
      constructor
      · intro hc
        exact DueStatus.noConfusion hc
      · rintro (hc | ⟨t', ht', hint⟩)
        · exact Option.noConfusion hc
        · obtain rfl : t = t' := Option.some.inj ht'
          omega

/-- C2: due evaluation is a pure function of the record and the clock: a
daily record is due iff `last_sent` is absent or `now − last_sent ≥ 24` hours
(86400 s), weekly with `7 × 24` hours (604800 s), monthly with `30 × 24`
hours (2592000 s), equality at the threshold counting as due; in particular a
daily record with `last_sent = now − 24h` evaluates due and one with
`last_sent = now − 24h + 1s` evaluates not due. -/
theorem due_evaluation_spec (n : Notification) (now : Nat) :
    (n.frequency = "daily" →
      (dueEval n now = DueStatus.Due ↔ n.last_sent = none ∨
        ∃ t : Nat, n.last_sent = some t ∧ (86400 : Int) ≤ (now : Int) - (t : Int))) ∧
    (n.frequency = "weekly" →
      (dueEval n now = DueStatus.Due ↔ n.last_sent = none ∨
        ∃ t : Nat, n.last_sent = some t ∧ (604800 : Int) ≤ (now : Int) - (t : Int))) ∧
    (n.frequency = "monthly" →
      (dueEval n now = DueStatus.Due ↔ n.last_sent = none ∨
        ∃ t : Nat, n.last_sent = some t ∧ (2592000 : Int) ≤ (now : Int) - (t : Int))) ∧
    (∀ tp : String, ∀ t : Nat,
      dueEval ⟨tp, "daily", some t⟩ (t + 86400) = DueStatus.Due) ∧
    (∀ tp : String, ∀ t : Nat,
      dueEval ⟨tp, "daily", some (t + 1)⟩ (t + 86400) = DueStatus.NotDue) := by
  refine ⟨?_, ?_, ?_, ?_, ?_⟩
  · intro hf
    rw [show dueEval n now = duePeriod n.last_sent now 86400 by
      simp [dueEval, hf]]
    exact duePeriod_due_iff n.last_sent now 86400
  · intro hf
    rw [show dueEval n now = duePeriod n.last_sent now 604800 by
      simp [dueEval, hf]]
    exact duePeriod_due_iff n.last_sent now 604800
  · intro hf
    rw [show dueEval n now = duePeriod n.last_sent now 2592000 by
      simp [dueEval, hf]]
    exact duePeriod_due_iff n.last_sent now 2592000
  · intro tp t
    simp [dueEval, duePeriod]
  · intro tp t
    simp [dueEval, duePeriod]

/-- Witness for `due_evaluation_spec`: a daily record exactly at and just
inside its 24-hour threshold. -/
theorem due_evaluation_spec_witness :
    (dueEval ⟨"billing", "daily", some 10⟩ 86410 = DueStatus.Due) ∧
    (dueEval ⟨"billing", "daily", some 11⟩ 86410 = DueStatus.NotDue) := by
  constructor
  · exact (due_evaluation_spec ⟨"billing", "daily", some 10⟩ 86410).1 rfl |>.mpr
      (Or.inr ⟨10, rfl, by omega⟩)
  · exact (due_evaluation_spec ⟨"billing", "daily", some 10⟩ 86410).2.2.2.2 "billing" 10

/-- Computation rule for `Except` bind on a success value. -/
theorem except_bind_ok {α β : Type} (a : α) (g : α → Except String β) :
    (Except.ok a : Except String α) >>= g = g a := rfl

/-- A notification whose `last_sent` is absent serializes to a plain JSON
object, and reading that object back returns the same record. -/
theorem encNotification_roundtrip (n : Notification) (h : n.last_sent = none) :
    encNotification n = Except.ok (JValue.obj [("topic", JValue.str n.topic),
      ("frequency", JValue.str n.frequency), ("last_sent", JValue.null)]) ∧
    decNotification (JValue.obj [("topic", JValue.str n.topic),
      ("frequency", JValue.str n.frequency), ("last_sent", JValue.null)])
      = Except.ok n := by
  cases n with
  | mk tp f ls =>
    subst h
    exact ⟨rfl, rfl⟩

/-- Lifting an elementwise encode/decode inverse pair through `List.mapM`. -/
theorem mapM_roundtrip {α β : Type} (enc : α → Except String β)
    (dec : β → Except String α) :
    ∀ xs : List α, (∀ x ∈ xs, ∃ y : β, enc x = Except.ok y ∧ dec y = Except.ok x) →
    ∃ ys : List β, xs.mapM enc = Except.ok ys ∧ ys.mapM dec = Except.ok xs := by
  intro xs
  induction xs with
  | nil => exact fun _ => ⟨[], rfl, rfl⟩
  | cons x rest ih =>
    intro h
    obtain ⟨y, hy1, hy2⟩ := h x (List.mem_cons_self x rest)
    obtain ⟨ys, hys1, hys2⟩ := ih fun z hz => h z (List.mem_cons_of_mem x hz)
    refine ⟨y :: ys, ?_, ?_⟩
    · simp only [List.mapM_cons, hy1, hys1, except_bind_ok]
      rfl
    · simp only [List.mapM_cons, hy2, hys2, except_bind_ok]
      rfl

/-- Reading back a serialized list of topic names returns the same list. -/
theorem mapM_decString_map (ts : List String) :
    (ts.map JValue.str).mapM decString = Except.ok ts := by
  induction ts with
  | nil => rfl
  | cons s rest ih =>
    simp only [List.map_cons, List.mapM_cons, ih, except_bind_ok]
    rfl

/-- A recipient all of whose notifications have absent `last_sent`
serializes, and reading the object back returns the same recipient. -/
theorem encRecipient_roundtrip (r : Recipient)
    (h : ∀ n ∈ r.notifications, n.last_sent = none) :
    ∃ j : JValue, encRecipient r = Except.ok j ∧ decRecipient j = Except.ok r := by
  obtain ⟨ns, hns1, hns2⟩ := mapM_roundtrip encNotification decNotification
    r.notifications fun n hn => ⟨_, (encNotification_roundtrip n (h n hn)).1,
      (encNotification_roundtrip n (h n hn)).2⟩
  refine ⟨JValue.obj [("email", JValue.str r.email),
    ("topics", JValue.arr (r.topics.map JValue.str)),
    ("notifications", JValue.arr ns)], ?_, ?_⟩
  · simp only [encRecipient, hns1, except_bind_ok]
  · simp only [decRecipient, mapM_decString_map, hns2, except_bind_ok]

/-- C10: a directory state in which every notification's `last_sent` is
absent (`null`) is JSON-serializable, and `save_data` followed by
`load_data` returns exactly the same recipients and topics lists. -/
theorem save_load_roundtrip (rs : List Recipient) (ts : List String)
    (h : ∀ r ∈ rs, ∀ n ∈ r.notifications, n.last_sent = none) :
    ∃ j : JValue, saveData rs ts = Except.ok j ∧ loadData j = Except.ok (rs, ts) := by
  obtain ⟨es, hes1, hes2⟩ := mapM_roundtrip encRecipient decRecipient rs
    fun r hr => encRecipient_roundtrip r (h r hr)
  refine ⟨JValue.obj [("recipients", JValue.arr es),
    ("topics", JValue.arr (ts.map JValue.str))], ?_, ?_⟩
  · simp only [saveData, hes1, except_bind_ok]
  · have hl1 : lookupJ [("recipients", JValue.arr es),
        ("topics", JValue.arr (ts.map JValue.str))] "recipients"
        = some (JValue.arr es) := rfl
    have hl2 : lookupJ [("recipients", JValue.arr es),
        ("topics", JValue.arr (ts.map JValue.str))] "topics"
        = some (JValue.arr (ts.map JValue.str)) := by
      simp only [lookupJ]
      rw [if_neg (show ("recipients" : String) ≠ "topics" by decide), if_pos trivial]
    simp only [loadData, hl1, hl2, hes2, mapM_decString_map, except_bind_ok]

/-- Witness for `save_load_roundtrip`: a one-recipient directory with a
`null` `last_sent` survives the save/load round trip. -/
theorem save_load_roundtrip_witness :
    ∃ j : JValue,
      saveData [⟨"a@x.com", ["billing"], [⟨"billing", "daily", none⟩]⟩]
        ["billing", "security"] = Except.ok j ∧
      loadData j = Except.ok
        ([⟨"a@x.com", ["billing"], [⟨"billing", "daily", none⟩]⟩],
         ["billing", "security"]) :=
  save_load_roundtrip [⟨"a@x.com", ["billing"], [⟨"billing", "daily", none⟩]⟩]
    ["billing", "security"] (by decide)

/-- Merging a different topic does not move or change the first record of
topic `t`. -/
theorem firstMatch_mergeTopic_ne (ns : List Notification) (t t' f : String)
    (now : Nat) (h : t ≠ t') :
    firstMatch (mergeTopic ns t' f now) t = firstMatch ns t := by
  induction ns with
  | nil =>
    have h1 : ¬ (t' = t) := fun hc => h hc.symm
    simp [mergeTopic, firstMatch, h1]
  | cons n rest ih =>
    by_cases hn : n.topic = t'
    · have h1 : ¬ (t' = t) := fun hc => h hc.symm
      have h2 : ¬ (n.topic = t) := fun hc => h (hc.symm.trans hn)
      simp [mergeTopic, firstMatch, hn, h1, h2]
    · by_cases hm : n.topic = t
      · have h1 : ¬ (t = t') := h
        simp [mergeTopic, firstMatch, hn, hm, h1]
      · simp [mergeTopic, firstMatch, hn, hm, ih]

/-- After a merge step for topic `t`, the first record for `t` carries topic
`t` and the chosen frequency. -/
theorem firstMatch_mergeTopic_self (ns : List Notification) (t f : String)
    (now : Nat) :
    ∃ ls : Option Nat, firstMatch (mergeTopic ns t f now) t = some ⟨t, f, ls⟩ := by
  induction ns with
  | nil =>
    exact ⟨if f = "instant" then some now else none, by simp [mergeTopic, firstMatch]⟩
  | cons n rest ih =>
    by_cases hn : n.topic = t
    · exact ⟨if f = "instant" then some now else n.last_sent,
        by simp [mergeTopic, hn, firstMatch]⟩
    · obtain ⟨ls, hls⟩ := ih
      exact ⟨ls, by simp [mergeTopic, hn, firstMatch, hls]⟩

/-- A merge step with frequency `f` preserves "the first record for `t` has
frequency `f`", whatever topic the step merges. -/
theorem firstHasFreq_mergeTopic (ns : List Notification) (t t' f : String)
    (now : Nat) (h : firstHasFreq ns t f) :
    firstHasFreq (mergeTopic ns t' f now) t f := by
  by_cases hne : t = t'
  · subst hne
    obtain ⟨ls, hls⟩ := firstMatch_mergeTopic_self ns t f now
    exact ⟨ls, hls⟩
  · obtain ⟨ls, hls⟩ := h
    exact ⟨ls, by rw [firstMatch_mergeTopic_ne ns t t' f now hne]; exact hls⟩

/-- A merge pass with frequency `f` preserves "the first record for `t` has
frequency `f`". -/
theorem firstHasFreq_mergeSelection (S : List String) (ns : List Notification)
    (t f : String) (now : Nat) (h : firstHasFreq ns t f) :
    firstHasFreq (mergeSelection ns S f now) t f := by
  induction S generalizing ns with
  | nil => exact h
  | cons t' S' ih =>
    exact ih (mergeTopic ns t' f now) (firstHasFreq_mergeTopic ns t t' f now h)

/-- After a merge pass, every selected topic's first record carries the
chosen frequency. -/
theorem mergeSelection_establishes (S : List String) (ns : List Notification)
    (f : String) (now : Nat) :
    ∀ t ∈ S, firstHasFreq (mergeSelection ns S f now) t f := by
  induction S generalizing ns with
  | nil => exact fun t ht => absurd ht (List.not_mem_nil t)
  | cons t' S' ih =>
    intro t ht
    rcases List.mem_cons.mp ht with rfl | ht'
    · obtain ⟨ls, hls⟩ := firstMatch_mergeTopic_self ns t f now
      exact firstHasFreq_mergeSelection S' (mergeTopic ns t f now) t f now ⟨ls, hls⟩
    · exact ih (mergeTopic ns t' f now) t ht'

/-- A non-instant merge step whose topic already carries the chosen frequency
is the identity. -/
theorem mergeTopic_id_of_firstMatch (ns : List Notification) (t f : String)
    (now : Nat) (ls : Option Nat) (hf : f ≠ "instant")
    (hls : firstMatch ns t = some ⟨t, f, ls⟩) :
    mergeTopic ns t f now = ns := by
  induction ns with
  | nil => exact absurd hls (by simp [firstMatch])
  | cons n rest ih =>
    by_cases hn : n.topic = t
    · have hne : n = ⟨t, f, ls⟩ :=
        Option.some.inj (by rw [← hls]; simp [firstMatch, hn])
      subst hne
      simp [mergeTopic, hf]
    · have hls' : firstMatch rest t = some ⟨t, f, ls⟩ := by
        rw [← hls]; simp [firstMatch, hn]
      simp [mergeTopic, hn, ih hls']

/-- A non-instant merge pass over topics whose first records already carry
the chosen frequency is the identity. -/
theorem mergeSelection_id (S : List String) (ns : List Notification) (f : String)
    (now : Nat) (hf : f ≠ "instant") (h : ∀ t ∈ S, firstHasFreq ns t f) :
    mergeSelection ns S f now = ns := by
  induction S with
  | nil => rfl
  | cons t S' ih =>
    obtain ⟨ls, hls⟩ := h t (List.mem_cons_self t S')
    have hstep : mergeTopic ns t f now = ns :=
      mergeTopic_id_of_firstMatch ns t f now ls hf hls
    show mergeSelection (mergeTopic ns t f now) S' f now = ns
    rw [hstep]
    exact ih fun t' ht' => h t' (List.mem_cons_of_mem t ht')

/-- `sameButLastSent` is reflexive, elementwise over a list. -/
theorem sameButLastSent_refl (S : List String) (t2 : Nat) (X : List Notification) :
    List.Forall₂ (sameButLastSent S t2) X X := by
  induction X with
  | nil => exact List.Forall₂.nil
  | cons n rest ih => exact List.Forall₂.cons ⟨rfl, rfl, Or.inl rfl⟩ ih

/-- `sameButLastSent` composes, elementwise over lists. -/
theorem sameButLastSent_trans (S : List String) (t2 : Nat)
    {X Y Z : List Notification}
    (h1 : List.Forall₂ (sameButLastSent S t2) X Y)
    (h2 : List.Forall₂ (sameButLastSent S t2) Y Z) :
    List.Forall₂ (sameButLastSent S t2) X Z := by
  induction h1 generalizing Z with
  | nil =>
    cases h2
    exact List.Forall₂.nil
  | cons ha htail ih =>
    cases h2 with
    | cons hb htail2 =>
      refine List.Forall₂.cons ?_ (ih htail2)
      obtain ⟨hat, haf, hal⟩ := ha
      obtain ⟨hbt, hbf, hbl⟩ := hb
      refine ⟨hat.trans hbt, haf.trans hbf, ?_⟩
      rcases hal with hal | ⟨hin, hval⟩
      · rcases hbl with hbl | ⟨hin2, hval2⟩
        · exact Or.inl (hal.trans hbl)
        · exact Or.inr ⟨hat.symm ▸ hin2, hval2⟩
      · rcases hbl with hbl | ⟨hin2, hval2⟩
        · exact Or.inr ⟨hin, hbl.symm.trans hval⟩
        · exact Or.inr ⟨hin, hval2⟩

/-- An instant merge step for a selected topic `t` relates the old and new
lists by `sameButLastSent`: only the first `t`-record changes, and only in
`last_sent`, which becomes the step's clock value. -/
theorem mergeTopic_skew (ns : List Notification) (t : String) (t2 : Nat)
    (S : List String) (htS : t ∈ S) (ls : Option Nat)
    (hls : firstMatch ns t = some ⟨t, "instant", ls⟩) :
    List.Forall₂ (sameButLastSent S t2) ns (mergeTopic ns t "instant" t2) := by
  induction ns with
  | nil => exact absurd hls (by simp [firstMatch])
  | cons n rest ih =>
    by_cases hn : n.topic = t
    · have hne : n = ⟨t, "instant", ls⟩ :=
        Option.some.inj (by rw [← hls]; simp [firstMatch, hn])
      subst hne
      have hred : mergeTopic (⟨t, "instant", ls⟩ :: rest) t "instant" t2
          = ⟨t, "instant", some t2⟩ :: rest := by simp [mergeTopic]
      rw [hred]
      exact List.Forall₂.cons ⟨rfl, rfl, Or.inr ⟨htS, rfl⟩⟩
        (sameButLastSent_refl S t2 rest)
    · have hls' : firstMatch rest t = some ⟨t, "instant", ls⟩ := by
        rw [← hls]; simp [firstMatch, hn]
      have hred : mergeTopic (n :: rest) t "instant" t2
          = n :: mergeTopic rest t "instant" t2 := by simp [mergeTopic, hn]
      rw [hred]
      exact List.Forall₂.cons ⟨rfl, rfl, Or.inl rfl⟩ (ih hls')

/-- An instant merge pass over topics of `S` whose first records already
carry frequency `instant` relates the old and new lists by
`sameButLastSent S t2`. -/
theorem mergeSelection_skew (S' : List String) (X : List Notification)
    (S : List String) (t2 : Nat) (hsub : ∀ t ∈ S', t ∈ S)
    (h : ∀ t ∈ S', firstHasFreq X t "instant") :
    List.Forall₂ (sameButLastSent S t2) X (mergeSelection X S' "instant" t2) := by
  induction S' generalizing X with
  | nil => exact sameButLastSent_refl S t2 X
  | cons t S'' ih =>
    obtain ⟨ls, hls⟩ := h t (List.mem_cons_self t S'')
    have h1 : List.Forall₂ (sameButLastSent S t2) X (mergeTopic X t "instant" t2) :=
      mergeTopic_skew X t t2 S (hsub t (List.mem_cons_self t S'')) ls hls
    refine sameButLastSent_trans S t2 h1 (ih (mergeTopic X t "instant" t2) ?_ ?_)
    · exact fun t' ht' => hsub t' (List.mem_cons_of_mem t ht')
    · exact fun t' ht' => firstHasFreq_mergeTopic X t' t "instant" t2
        (h t' (List.mem_cons_of_mem t ht'))

/-- C3: applying the same `(topics, frequency)` selection twice, at times
`t1` then `t2`: for a non-instant frequency the second application changes
nothing — the state after the second application equals the state after the
first; for `instant`, the second application leaves every record's topic and
frequency unchanged and can differ only in `last_sent`, which then carries
the second application's clock value `t2` (and only for selected topics). -/
theorem merge_idempotency (ns : List Notification) (S : List String) (f : String)
    (t1 t2 : Nat) :
    (f ≠ "instant" →
      mergeSelection (mergeSelection ns S f t1) S f t2 = mergeSelection ns S f t1) ∧
    (f = "instant" →
      List.Forall₂ (sameButLastSent S t2) (mergeSelection ns S f t1)
        (mergeSelection (mergeSelection ns S f t1) S f t2)) := by
  constructor
  · intro hf
    exact mergeSelection_id S (mergeSelection ns S f t1) f t2 hf
      (mergeSelection_establishes S ns f t1)
  · intro hf
    subst hf
    exact mergeSelection_skew S (mergeSelection ns S "instant" t1) S t2
      (fun t ht => ht) (mergeSelection_establishes S ns "instant" t1)

/-- Witness for `merge_idempotency`: both branches at a concrete selection. -/
theorem merge_idempotency_witness :
    (mergeSelection (mergeSelection [] ["billing"] "daily" 1) ["billing"] "daily" 9
      = mergeSelection [] ["billing"] "daily" 1) ∧
    List.Forall₂ (sameButLastSent ["billing"] 9)
      (mergeSelection [] ["billing"] "instant" 1)
      (mergeSelection (mergeSelection [] ["billing"] "instant" 1) ["billing"] "instant" 9) :=
  ⟨(merge_idempotency [] ["billing"] "daily" 1 9).1 (by decide),
   (merge_idempotency [] ["billing"] "instant" 1 9).2 rfl⟩

end EmailNotify
